import Mathlib

/-!
# Verification of the OCR orchestration pipeline

A shallow embedding, in Lean 4, of the core functions of the OCR pipeline
(`app/services/ocr_service.py`, `app/service.py`, `app/ocr/*.py`), together
with proofs and refutations of the specified properties.

Python numeric values (floats used for confidences) are modelled exactly by
rationals `ℚ`; Python strings by `String` / `List Char`; fallible calls by
`Except String`.
-/

namespace OCRPipeline

/-! ## Rational helpers

`round(x, 2)` in Python rounds to 2 decimal places, ties to even. -/

/-- Round a rational to the nearest integer, ties to even
(the semantics of Python's builtin `round`). -/
def pyRoundHalfEven (q : ℚ) : ℤ :=
  if q - ⌊q⌋ < 1/2 then ⌊q⌋
  else if 1/2 < q - ⌊q⌋ then ⌊q⌋ + 1
  else if ⌊q⌋ % 2 = 0 then ⌊q⌋ else ⌊q⌋ + 1

/-- `round(x, 2)`: round to two decimal places, ties to even. -/
def round2 (q : ℚ) : ℚ := (pyRoundHalfEven (q * 100) : ℚ) / 100

theorem pyRoundHalfEven_nonneg {q : ℚ} (h : 0 ≤ q) : 0 ≤ pyRoundHalfEven q := by
  unfold pyRoundHalfEven
  have hf : (0:ℤ) ≤ ⌊q⌋ := Int.floor_nonneg.mpr h
  split <;> [exact hf; skip]
  split <;> [omega; skip]
  split <;> omega

theorem pyRoundHalfEven_le {q : ℚ} : (pyRoundHalfEven q : ℚ) ≤ q + 1/2 := by
  unfold pyRoundHalfEven
  have hf : (⌊q⌋ : ℚ) ≤ q := Int.floor_le q
  split
  · linarith
  · rename_i h1
    push_neg at h1
    split
    · rename_i h2
      push_cast
      linarith
    · rename_i h2
      push_neg at h2
      have : q - (⌊q⌋ : ℚ) = 1/2 := le_antisymm h2 h1
      split <;> push_cast <;> linarith

theorem round2_nonneg {q : ℚ} (h : 0 ≤ q) : 0 ≤ round2 q := by
  unfold round2
  have := pyRoundHalfEven_nonneg (q := q * 100) (by positivity)
  positivity

theorem round2_le {q : ℚ} : round2 q ≤ q + 1/200 := by
  unfold round2
  have := pyRoundHalfEven_le (q := q * 100)
  linarith

/-! ## C1 — Result aggregation (`_pipeline_pdf`, `ocr_service.py`)

Per-page DocAI results are collected in completion order and put back in
page order by `results.sort(key=lambda p: p["page_number"])`.  Python's
`list.sort` is a stable comparison sort; `List.insertionSort` is the
canonical stable sort, so it computes the same list. -/

/-- One per-page result dict, as returned by `run_docai_page`:
`{"page_number": int, "text": str, "confidence": float, "character_count": int}`. -/
structure PageRec where
  pageNumber : ℕ
  text : String
  confidence : ℚ
  characterCount : ℕ
deriving DecidableEq, Repr

instance : DecidableRel (fun a b : PageRec => a.pageNumber ≤ b.pageNumber) :=
  fun a b => Nat.decLe a.pageNumber b.pageNumber

instance : IsTotal PageRec (fun a b => a.pageNumber ≤ b.pageNumber) :=
  ⟨fun a b => Nat.le_total a.pageNumber b.pageNumber⟩

instance : IsTrans PageRec (fun a b => a.pageNumber ≤ b.pageNumber) :=
  ⟨fun _ _ _ hab hbc => Nat.le_trans hab hbc⟩

/-- `results.sort(key=lambda p: p["page_number"])` — stable sort by page number. -/
def sortPagesByNumber (rs : List PageRec) : List PageRec :=
  List.insertionSort (fun a b => a.pageNumber ≤ b.pageNumber) rs

/-! ## C2 — failure propagation in `_pipeline_pdf`

`_process_page` calls `run_docai_page`, which logs and re-raises any engine
exception; `_pipeline_pdf` awaits `asyncio.gather(*all_tasks)` with default
arguments, so the first failed task's exception propagates out of the
pipeline (and `process_file` re-raises it to the caller). -/

/-- `asyncio.gather` with default `return_exceptions=False`: if every task
succeeded the list of results is returned, otherwise a failed task's
exception propagates. -/
def gatherExcept {ε α : Type} : List (Except ε α) → Except ε (List α)
  | [] => .ok []
  | .ok a :: xs => (gatherExcept xs).map (a :: ·)
  | .error e :: _ => .error e

/-- `_pipeline_pdf`: one DocAI task per page 1..total_pages (whatever the
batching, every page gets exactly one task); gather; sort by page number.
`engine n` is the outcome of `run_docai_page` for page `n`. -/
def pipeline_pdf (engine : ℕ → Except String PageRec) (totalPages : ℕ) :
    Except String (List PageRec) :=
  (gatherExcept ((List.range' 1 totalPages).map engine)).map sortPagesByNumber

/-- A concrete engine whose page-2 call raises, as `run_docai_page` does on
any `documentai` client error. -/
def failingPage2Engine : ℕ → Except String PageRec := fun n =>
  if n = 2 then .error "DocAI page 2 FAILED" else .ok ⟨n, "ok", 95, 2⟩

/-! ## C3 — cascade remote fallback (`process_page`, `app/service.py`)

Pass 1/2 run Tesseract; if the best confidence is below
`settings.CONFIDENCE_THRESHOLD` (default 90), `run_docai(raw_bytes)` is
called.  `run_docai` returns the *pair* `(text, confidence)`, and
`process_page` does `return docai_text, 100.0` with `docai_text` bound to
that pair — so the page "text" slot receives a `(str, float)` tuple, not a
string.  The dynamic typing is modelled by `PyTextVal`. -/

/-- A Python value occupying the text slot of a page result: either a
string, or (through the fallback path) a `(str, float)` tuple. -/
inductive PyTextVal where
  | str (s : String)
  | strFloatPair (s : String) (c : ℚ)
deriving DecidableEq, Repr

/-- `settings.CONFIDENCE_THRESHOLD` (`app/config.py`), default 90. -/
def CONFIDENCE_THRESHOLD : ℚ := 90

/-- `process_page` (`app/service.py`).  `pass1` is the result of
`run_tesseract(img, langs, use_ocrmypdf=True)`, `pass2` the result of the
raw pass (run only when pass 1 confidence is below 90), `docai` the outcome
of `run_docai(raw_bytes)`. -/
def process_page (pass1 : String × ℚ) (pass2 : String × ℚ)
    (docai : Except String (String × ℚ)) : PyTextVal × ℚ :=
  let text := pass1.1
  let conf := pass1.2
  let best : String × ℚ :=
    if conf < 90 then (if pass2.2 > conf then pass2 else (text, conf))
    else (text, conf)
  if best.2 < CONFIDENCE_THRESHOLD then
    match docai with
    | .ok docaiPair => (.strFloatPair docaiPair.1 docaiPair.2, 100)
    | .error _ => (.str best.1, best.2)
  else (.str best.1, best.2)

/-! ## C4 — ensemble merger (`app/ocr/ensemble.py`) -/

/-- Modelled from the spec: `weighted_confidence` is imported from
`app.utils.confidence`, a module whose file is absent from the repository
snapshot.  The spec's merge contract says "highest confidence wins
outright", so the merged confidence is the winner's, i.e. the maximum.
(Nothing proved below about the merged *text* depends on this model.) -/
def weighted_confidence (tConf eConf : ℚ) : ℚ := max tConf eConf

/-- `ensemble(t_text, t_conf, e_text, e_conf)`:
text is `t_text if t_conf >= e_conf else e_text`. -/
def ensemble (tText : String) (tConf : ℚ) (eText : String) (eConf : ℚ) :
    String × ℚ :=
  (if tConf ≥ eConf then tText else eText, weighted_confidence tConf eConf)

/-! ## C8 — document-level confidence -/

/-- The arithmetic mean of a list of confidences, with the empty mean taken
as 0 (the spec: "0 pages ⇒ 0"; `ℚ` division by zero is 0). -/
def specMean (confs : List ℚ) : ℚ := confs.sum / confs.length

/-- `process_file` (`ocr_service.py`):
`avg_conf = sum(confs) / len(confs) if confs else 0.0`. -/
def docMeanConfidence (confs : List ℚ) : ℚ :=
  if confs = [] then 0 else confs.sum / confs.length

/-- `_run_mistral_ocr_sync` (`mistral_ocr_engine.py`):
`avg_conf = round(sum(page_confidences) / len(page_confidences)
if page_confidences else 0.0, 2)`. -/
def mistralDocConfidence (confs : List ℚ) : ℚ :=
  round2 (if confs = [] then 0 else confs.sum / confs.length)

/-! ## C10 — DocAI token-confidence extraction (`_extract_confidence`) -/

/-- `_extract_confidence`: average of the strictly positive token
confidences across all pages, scaled to 0–100 and rounded to 2 decimals;
`99.0` when there is no positive token confidence.  A document is a list of
pages, each a list of token-level `layout.confidence` values. -/
def extract_confidence (pages : List (List ℚ)) : ℚ :=
  let confs := (pages.foldr (· ++ ·) []).filter (fun c => 0 < c)
  if confs = [] then 99 else round2 ((confs.sum / confs.length) * 100)

/-! ## C5/C6 — hallucination filter (`app/ocr/easyocr_engine.py`)

Python strings are modelled as `List Char`; the regex character classes of
the source (`[ঀ-৿]`, `[A-Za-z]`, `[؀-ۿ]`, `\d`, `\s`)
become character predicates. -/

/-- A whitespace-delimited token. -/
abbrev Tok := List Char

/-- Python `str.split` / `\s` whitespace (the ASCII whitespace characters). -/
def isSpaceCh (c : Char) : Bool :=
  c == ' ' || c == '\t' || c == '\n' || c == '\r' ||
  c == Char.ofNat 11 || c == Char.ofNat 12

/-- `BANGLA_PATTERN`: the Bangla Unicode block `ঀ-৿`. -/
def isBanglaCh (c : Char) : Bool := 0x0980 ≤ c.toNat && c.toNat ≤ 0x09FF

/-- `ENGLISH_PATTERN`: `[A-Za-z]`. -/
def isLatinLetterCh (c : Char) : Bool :=
  (65 ≤ c.toNat && c.toNat ≤ 90) || (97 ≤ c.toNat && c.toNat ≤ 122)

/-- `ARABIC_PATTERN`: `؀-ۿ`. -/
def isArabicCh (c : Char) : Bool := 0x0600 ≤ c.toNat && c.toNat ≤ 0x06FF

/-- `\d`: an ASCII digit. -/
def isDigitCh (c : Char) : Bool := 48 ≤ c.toNat && c.toNat ≤ 57

/-- `BANGLA_PATTERN.search(token)`. -/
def hasBangla (t : Tok) : Bool := t.any isBanglaCh

/-- `ENGLISH_PATTERN.search(token)`. -/
def hasLatinLetter (t : Tok) : Bool := t.any isLatinLetterCh

/-- `ARABIC_PATTERN.search(token)`. -/
def hasArabic (t : Tok) : Bool := t.any isArabicCh

/-- `re.match(r'^\d+$', token)`: the whole token is one or more digits. -/
def allDigitsTok (t : Tok) : Bool := !t.isEmpty && t.all isDigitCh

/-- `re.match(r'^\d+[.,:]?$', word)`: digits optionally followed by one of
`.`, `,`, `:`. -/
def numericWithPunct (t : Tok) : Bool :=
  allDigitsTok t ||
    (match t.reverse with
     | p :: rest => (p == '.' || p == ',' || p == ':') && !rest.isEmpty && rest.all isDigitCh
     | [] => false)

/-- The allow-list of units/abbreviations kept even though pure-Latin:
`{'kg','cm','mm','km','mg','ml','pH','DNA','RNA','CO2','H2O'}`. -/
def englishAllowTokens : List Tok :=
  ["kg", "cm", "mm", "km", "mg", "ml", "pH", "DNA", "RNA", "CO2", "H2O"].map String.data

/-- Python `str.strip()`: drop leading and trailing whitespace. -/
def pyStrip (t : List Char) : List Char :=
  ((t.dropWhile isSpaceCh).reverse.dropWhile isSpaceCh).reverse

/-- The mixed-token test of `_filter_hallucinated_english_token`:
`english_chars / (bangla_chars + english_chars) > 0.3`. -/
def latinShareHigh (t : Tok) : Prop :=
  (3 : ℚ) / 10 <
    ((t.filter isLatinLetterCh).length : ℚ) /
      (((t.filter isBanglaCh).length : ℚ) + ((t.filter isLatinLetterCh).length : ℚ))

instance (t : Tok) : Decidable (latinShareHigh t) := by
  unfold latinShareHigh; exact inferInstance

/-- `re.sub(r'[A-Za-z]', '', token)`. -/
def stripLatinLetters (t : Tok) : Tok := t.filter (fun c => !isLatinLetterCh c)

/-- The Arabic-only block of `_filter_hallucinated_english_token`, plus the
final `return token` that control falls through to. -/
def arabicBranchToken (t : Tok) (langs : List String) : Tok :=
  if "ar" ∈ langs ∧ "en" ∉ langs then
    if hasLatinLetter t && !hasArabic t then
      (if allDigitsTok t then t else [])
    else if hasLatinLetter t && hasArabic t then
      (if pyStrip (stripLatinLetters t) = [] then [] else pyStrip (stripLatinLetters t))
    else t
  else t

/-- `_filter_hallucinated_english_token(token, langs)` (the `mode` argument
is unused in the source body). -/
def filterHallucinatedToken (t : Tok) (langs : List String) : Tok :=
  if t = [] then t
  else if "en" ∈ langs then t
  else if "bn" ∈ langs ∧ "en" ∉ langs then
    if hasLatinLetter t && !hasBangla t then
      if allDigitsTok t then t
      else if t ∈ englishAllowTokens then t
      else if t.length == 1 && t.all isLatinLetterCh then []
      else []
    else if hasLatinLetter t && hasBangla t then
      if latinShareHigh t then
        (if pyStrip (stripLatinLetters t) = [] then [] else pyStrip (stripLatinLetters t))
      else t
    else arabicBranchToken t langs
  else arabicBranchToken t langs

/-- The keep-condition of the sentence-level loop in
`_filter_hallucinated_english`: a word is dropped exactly when it matches
`ENGLISH_PATTERN`, does not match `BANGLA_PATTERN`, and is not a number
with optional punctuation. -/
def sentenceKeepWord (w : Tok) : Bool :=
  if hasLatinLetter w && !hasBangla w then numericWithPunct w else true

/-- Python `str.split()`: split on whitespace runs, dropping empty pieces. -/
def splitWs (s : List Char) : List Tok :=
  match s with
  | [] => []
  | c :: cs =>
    if isSpaceCh c then splitWs cs
    else (c :: cs.takeWhile (fun d => !isSpaceCh d)) ::
      splitWs (cs.dropWhile (fun d => !isSpaceCh d))
termination_by s.length
decreasing_by
  · simp only [List.length_cons]; omega
  · simp only [List.length_cons]
    have : (cs.dropWhile (fun d => !isSpaceCh d)).length ≤ cs.length :=
      (List.dropWhile_sublist _).length_le
    omega

/-- `' '.join(tokens)`. -/
def joinSp : List Tok → List Char
  | [] => []
  | [t] => t
  | t :: ts => t ++ ' ' :: joinSp ts

/-- `re.sub(r' {2,}', ' ', s)`: collapse every run of space characters to a
single space (runs of length one are unchanged either way). -/
def collapseSpaceRuns (s : List Char) : List Char :=
  match s with
  | [] => []
  | c :: rest =>
    if c == ' ' then ' ' :: collapseSpaceRuns (rest.dropWhile (fun d => d == ' '))
    else c :: collapseSpaceRuns rest
termination_by s.length
decreasing_by
  all_goals
    simp only [List.length_cons]
    first
    | omega
    | exact Nat.lt_succ_of_le (List.dropWhile_sublist _).length_le

/-- `_filter_hallucinated_english(text, langs)` (the `mode` argument is
unused in the source body; the unreachable trailing `return result` after
the first `return` is dropped). -/
def filterHallucinatedText (text : List Char) (langs : List String) : List Char :=
  if text = [] then text
  else if "en" ∈ langs then text
  else
    let filtered :=
      ((splitWs text).map (fun t => filterHallucinatedToken t langs)).filter
        (fun t => !t.isEmpty)
    let result := joinSp filtered
    let result2 :=
      if "bn" ∈ langs ∧ "en" ∉ langs then
        joinSp ((splitWs result).filter sentenceKeepWord)
      else result
    pyStrip (collapseSpaceRuns result2)

/-- String-level wrapper for `_filter_hallucinated_english`. -/
def filterText (text : String) (langs : List String) : String :=
  ⟨filterHallucinatedText text.data langs⟩

/-- The token list that `_filter_hallucinated_english` keeps: token-level
filtering, dropping of falsy (empty) results and, in Bangla mode, the
sentence-level pass.  `filterHallucinatedText` joins exactly these tokens
with single spaces (proved below in `filterText_eq_joinSp`). -/
def keptTokens (text : List Char) (langs : List String) : List Tok :=
  let f := ((splitWs text).map (fun t => filterHallucinatedToken t langs)).filter
    (fun t => !t.isEmpty)
  if "bn" ∈ langs ∧ "en" ∉ langs then f.filter sentenceKeepWord else f

/-! ## C7 — Mistral heuristic page confidence
(`_compute_page_confidence`, `app/ocr/mistral_ocr_engine.py`)

The markdown-stripping `re.sub` calls are embedded as left-to-right,
non-overlapping scanners, each advancing one character when its pattern
does not match at the current position (the semantics of `re.sub`). -/

/-- Match `[^\]]*\]\([^)]*\)` (the part after a `[`): consume up to the
first `]`, require `](`, consume up to the first `)`, require `)`.
Returns the remaining input on success. -/
def matchBracketTail (rest : List Char) : Option (List Char) :=
  match rest.dropWhile (fun c => !(c == ']')) with
  | ']' :: '(' :: rest2 =>
    match rest2.dropWhile (fun c => !(c == ')')) with
    | ')' :: rest3 => some rest3
    | _ => none
  | _ => none

/-- `!\[[^\]]*\]\([^)]*\)` — a markdown image reference. -/
def matchImageRef : List Char → Option (List Char)
  | '!' :: '[' :: rest => matchBracketTail rest
  | _ => none

/-- `\[[^\]]*\]\([^)]*\)` — a markdown link. -/
def matchLinkRef : List Char → Option (List Char)
  | '[' :: rest => matchBracketTail rest
  | _ => none

/-- Scan for the first triple-backtick, returning what follows it. -/
def findTripleTick : List Char → Option (List Char)
  | a :: b :: c :: rest =>
    if a == Char.ofNat 96 && b == Char.ofNat 96 && c == Char.ofNat 96 then some rest
    else findTripleTick (b :: c :: rest)
  | _ => none

/-- A fenced code block: three backticks, then (non-greedily) anything up
to the nearest following three backticks. -/
def matchFencedCode : List Char → Option (List Char)
  | a :: b :: c :: rest =>
    if a == Char.ofNat 96 && b == Char.ofNat 96 && c == Char.ofNat 96 then
      findTripleTick rest
    else none
  | _ => none

/-- Inline code: a backtick, one or more non-backticks, a backtick. -/
def matchInlineCode : List Char → Option (List Char)
  | c :: rest =>
    if c == Char.ofNat 96 then
      if (rest.takeWhile (fun d => !(d == Char.ofNat 96))).isEmpty then none
      else
        match rest.dropWhile (fun d => !(d == Char.ofNat 96)) with
        | d :: rest2 => if d == Char.ofNat 96 then some rest2 else none
        | [] => none
    else none
  | [] => none

/-- `re.sub(pattern, " ", s)` driver: at each position, emit a single space
and skip the match if the pattern matches there, otherwise copy one
character.  Fuel-indexed; every match consumes at least two characters, so
`s.length` fuel always suffices (see `subScan`). -/
def subScanF (m : List Char → Option (List Char)) : ℕ → List Char → List Char
  | 0, l => l
  | _ + 1, [] => []
  | fuel + 1, c :: cs =>
    match m (c :: cs) with
    | some rest => ' ' :: subScanF m fuel rest
    | none => c :: subScanF m fuel cs

/-- `re.sub(pattern, " ", s)` with enough fuel for the whole input. -/
def subScan (m : List Char → Option (List Char)) (l : List Char) : List Char :=
  subScanF m l.length l

/-- The character class `[#*_~|<>{}\\\-=+]` of markup symbols
(braces and backslash written by code point). -/
def isMarkupSymbolCh (c : Char) : Bool :=
  c == '#' || c == '*' || c == '_' || c == '~' || c == '|' || c == '<' || c == '>' ||
  c == Char.ofNat 123 || c == Char.ofNat 125 || c == Char.ofNat 92 ||
  c == '-' || c == '=' || c == '+'

/-- `re.sub(r"\s+", " ", s)`: collapse every whitespace run to one space. -/
def collapseWsRuns (s : List Char) : List Char :=
  match s with
  | [] => []
  | c :: rest =>
    if isSpaceCh c then ' ' :: collapseWsRuns (rest.dropWhile isSpaceCh)
    else c :: collapseWsRuns rest
termination_by s.length
decreasing_by
  all_goals
    simp only [List.length_cons]
    first
    | omega
    | exact Nat.lt_succ_of_le (List.dropWhile_sublist _).length_le

/-- The `plain` value of `_compute_page_confidence`: markdown image refs,
links, fenced code, inline code replaced by spaces; markup symbols replaced
by spaces; whitespace collapsed; stripped. -/
def plainTextOf (text : List Char) : List Char :=
  let s1 := subScan matchImageRef text
  let s2 := subScan matchLinkRef s1
  let s3 := subScan matchFencedCode s2
  let s4 := subScan matchInlineCode s3
  let s5 := s4.map (fun c => if isMarkupSymbolCh c then ' ' else c)
  pyStrip (collapseWsRuns s5)

/-- Python `str.isalnum`, restricted to the scripts this pipeline handles:
ASCII letters and digits, Bengali letters (U+0985–U+09B9) and Bengali
digits (U+09E6–U+09EF).  The same predicate is used on both the code side
and the spec side of the refinement below. -/
def isAlnumPy (c : Char) : Bool :=
  isLatinLetterCh c || isDigitCh c ||
  (0x0985 ≤ c.toNat && c.toNat ≤ 0x09B9) || (0x09E6 ≤ c.toNat && c.toNat ≤ 0x09EF)

/-- Signal 1 counting: U+FFFD replacement characters and control characters
other than newline, carriage return and tab. -/
def badCharCount (text : List Char) : ℕ :=
  (text.filter (fun c =>
    c == Char.ofNat 0xFFFD ||
    (c.toNat < 32 && !(c == '\n') && !(c == '\r') && !(c == '\t')))).length

/-- `_compute_page_confidence(text)`, translated clause by clause —
including the early return when the markdown-stripped plain text is
empty. -/
def computePageConfidence (text : List Char) : ℚ :=
  if text = [] then 0
  else
    let badScore : ℚ := 1 - (badCharCount text : ℚ) / (text.length : ℚ)
    let plain := plainTextOf text
    if plain = [] then round2 (min (999/10) (max 0 (badScore * 50)))
    else
      let alnumShare : ℚ := ((plain.filter isAlnumPy).length : ℚ) / (plain.length : ℚ)
      let tokens := splitWs plain
      let wordLike := tokens.filter (fun t => 2 ≤ t.length && t.length ≤ 20)
      let wordScore : ℚ := (wordLike.length : ℚ) / ((max tokens.length 1 : ℕ) : ℚ)
      round2 (min (999/10) (max 0 (badScore * 50 + alnumShare * 30 + wordScore * 20)))

/-- Spec side, signal (a): absence of decoding-failure characters. -/
def badScoreOf (text : List Char) : ℚ :=
  1 - (badCharCount text : ℚ) / (text.length : ℚ)

/-- Spec side, signal (b): alphanumeric density of the plain text
(density of empty text taken as 0 — `ℚ` division by zero is 0). -/
def alnumShareOf (plain : List Char) : ℚ :=
  ((plain.filter isAlnumPy).length : ℚ) / (plain.length : ℚ)

/-- Spec side, signal (c): fraction of tokens that look like real words
(2–20 characters). -/
def wordScoreOf (plain : List Char) : ℚ :=
  (((splitWs plain).filter (fun t => 2 ≤ t.length && t.length ≤ 20)).length : ℚ) /
    ((max (splitWs plain).length 1 : ℕ) : ℚ)

/-- The spec's formula: `0.0` for an empty page, otherwise the clamped,
2-decimal-rounded weighted blend 50 % · (a) + 30 % · (b) + 20 % · (c). -/
def confidenceBlendSpec (text : List Char) : ℚ :=
  if text = [] then 0
  else
    round2 (min (999/10) (max 0
      (badScoreOf text * 50 + alnumShareOf (plainTextOf text) * 30 +
        wordScoreOf (plainTextOf text) * 20)))

/-! ## C9 — engine routing with size fallback (`process_file_auto`) -/

/-- `MISTRAL_MAX_FILE_BYTES` (default 50 MB). -/
def MISTRAL_MAX_FILE_BYTES : ℕ := 50 * 1024 * 1024

/-- `COMPRESS_THRESHOLD_BYTES` (default 45 MB). -/
def COMPRESS_THRESHOLD_BYTES : ℕ := 45 * 1024 * 1024

/-- Python's `needle in haystack` substring test. -/
def strContainsSub (hay needle : String) : Bool :=
  hay.data.tails.any (fun t => needle.data.isPrefixOf t)

/-- The reactive fallback test of `process_file_auto`:
`"413" in err or "Payload Too Large" in err or "Request size limit" in err`. -/
def isPayloadTooLargeError (e : String) : Bool :=
  strContainsSub e "413" || strContainsSub e "Payload Too Large" ||
    strContainsSub e "Request size limit"

/-- The result dict fields that `process_file_auto` reads or writes. -/
structure DocResult where
  text : String
  confidence : ℚ
  pages : ℕ
  languages : List String
  mode : String
deriving DecidableEq, Repr

/-- The final language override of `process_file_auto`: `detect_language`
(whose statistical language identifier is an external library) is modelled
as an arbitrary function `detectLang` of the extracted text. -/
def applyAutoLanguage (detectLang : String → List String × String)
    (r : DocResult) : DocResult :=
  { r with languages := (detectLang r.text).1, mode := (detectLang r.text).2 }

/-- `process_file_auto` for a caller routed to the Mistral (premium)
family.  `fileLen` is `len(file_bytes)`, `compressedLen` the length of
`compress_for_mistral(file_bytes, ...)`, `mistralOutcome` the outcome of
`process_file_mistral` on the (possibly compressed) bytes, `docaiOutcome`
the outcome of `process_file` (DocAI) on the original bytes. -/
def process_file_auto (detectLang : String → List String × String)
    (fileLen compressedLen : ℕ)
    (mistralOutcome docaiOutcome : Except String DocResult) :
    Except String DocResult :=
  let mistralLen := if COMPRESS_THRESHOLD_BYTES < fileLen then compressedLen else fileLen
  let routed : Except String DocResult :=
    if MISTRAL_MAX_FILE_BYTES < mistralLen then docaiOutcome
    else
      match mistralOutcome with
      | .ok r => .ok r
      | .error e => if isPayloadTooLargeError e then docaiOutcome else .error e
  routed.map (applyAutoLanguage detectLang)

/-! # Theorems -/

/-! ## C1 -/

/-- C1: for every list of per-page results, in whatever completion order
the page tasks finish, document aggregation returns the pages sorted
ascending by page number, with every page 1..N present, for all N ≥ 1:
whenever the collected results carry page numbers that are a permutation of
1..N, sorting returns exactly those results with page numbers 1, …, N in
ascending order. -/
theorem aggregate_sorts_pages (N : ℕ) (_hN : 1 ≤ N) (rs : List PageRec)
    (hperm : List.Perm (rs.map PageRec.pageNumber) (List.range' 1 N)) :
    List.Perm (sortPagesByNumber rs) rs ∧
    (sortPagesByNumber rs).map PageRec.pageNumber = List.range' 1 N := by
  refine ⟨List.perm_insertionSort _ rs, ?_⟩
  have hsorted : List.Sorted (fun a b : ℕ => a ≤ b)
      ((sortPagesByNumber rs).map PageRec.pageNumber) :=
    List.Pairwise.map PageRec.pageNumber (fun _ _ hab => hab)
      (List.sorted_insertionSort (fun a b : PageRec => a.pageNumber ≤ b.pageNumber) rs)
  have hp2 : List.Perm ((sortPagesByNumber rs).map PageRec.pageNumber)
      (List.range' 1 N) :=
    ((List.perm_insertionSort (fun a b : PageRec => a.pageNumber ≤ b.pageNumber) rs).map
      PageRec.pageNumber).trans hperm
  exact List.eq_of_perm_of_sorted hp2 hsorted
    (List.Pairwise.imp le_of_lt (List.pairwise_lt_range' 1 N))

/-- Witness for C1 at N = 3 with results arriving out of order (3, 1, 2). -/
theorem aggregate_sorts_pages_witness :
    (1 ≤ 3 ∧
      List.Perm (([⟨3, "c", 10, 1⟩, ⟨1, "a", 20, 1⟩, ⟨2, "b", 30, 2⟩] :
        List PageRec).map PageRec.pageNumber) (List.range' 1 3)) ∧
    (sortPagesByNumber [⟨3, "c", 10, 1⟩, ⟨1, "a", 20, 1⟩, ⟨2, "b", 30, 2⟩]).map
      PageRec.pageNumber = List.range' 1 3 :=
  ⟨⟨by decide, by decide⟩, (aggregate_sorts_pages 3 (by decide) _ (by decide)).2⟩

/-! ## C2 -/

/-- C2 counterexample: with page 2's engine call failing in a 2-page
document, the pipeline returns the error — not an `ok` document in which
page 2 is recorded with empty text and zero confidence next to its intact
sibling, as the claim requires. -/
theorem page_failure_counterexample :
    pipeline_pdf failingPage2Engine 2 = .error "DocAI page 2 FAILED" ∧
    pipeline_pdf failingPage2Engine 2 ≠
      .ok [⟨1, "ok", 95, 2⟩, ⟨2, "", 0, 0⟩] := by
  have he : pipeline_pdf failingPage2Engine 2 = .error "DocAI page 2 FAILED" := by
    rfl
  exact ⟨he, fun h => Except.noConfusion (he.symm.trans h)⟩

/-- C2 (amended): in the DocAI pipeline a failing page is *not* recorded as
a degraded page result; its exception propagates through `gather` and the
whole document call fails with an error (sibling results are discarded). -/
theorem page_failure_propagates (engine : ℕ → Except String PageRec)
    (total n : ℕ) (hn : n ∈ List.range' 1 total) (e : String)
    (he : engine n = .error e) :
    ∃ msg, pipeline_pdf engine total = .error msg := by
  suffices h : ∃ msg, gatherExcept ((List.range' 1 total).map engine) = .error msg by
    obtain ⟨msg, hmsg⟩ := h
    exact ⟨msg, by simp [pipeline_pdf, hmsg, Except.map]⟩
  generalize List.range' 1 total = l at hn
  induction l with
  | nil => simp at hn
  | cons a as ih =>
    rcases List.mem_cons.mp hn with rfl | hmem
    · exact ⟨e, by simp [gatherExcept, he]⟩
    · cases ha : engine a with
      | ok v =>
        obtain ⟨msg, hmsg⟩ := ih hmem
        exact ⟨msg, by simp [gatherExcept, ha, hmsg, Except.map]⟩
      | error e2 => exact ⟨e2, by simp [gatherExcept, ha]⟩

/-- Witness for the amended C2 at the concrete failing engine. -/
theorem page_failure_propagates_witness :
    (2 ∈ List.range' 1 2 ∧
      failingPage2Engine 2 = .error "DocAI page 2 FAILED") ∧
    ∃ msg, pipeline_pdf failingPage2Engine 2 = .error msg :=
  ⟨⟨by decide, by rfl⟩,
    page_failure_propagates failingPage2Engine 2 2 (by decide)
      "DocAI page 2 FAILED" (by rfl)⟩

/-! ## C3 -/

/-- C3 (code bug): in the remote-fallback branch, `process_page` returns
`run_docai`'s `(text, confidence)` *tuple* as the page text.  At the
claimed scenario — primary and raw passes empty with zero confidence, the
cloud engine returning `"Hello"` — the final text slot holds the pair
`("Hello", 99.0)`, which is not the string `"Hello"` (the override
confidence 100.0 part does hold). -/
theorem docai_fallback_text_is_tuple :
    process_page ("", 0) ("", 0) (.ok ("Hello", 99)) =
      (PyTextVal.strFloatPair "Hello" 99, 100) ∧
    PyTextVal.strFloatPair "Hello" 99 ≠ PyTextVal.str "Hello" := by
  exact ⟨by decide, fun h => PyTextVal.noConfusion h⟩

/-! ## C4 -/

/-- C4 counterexample: with equal confidences and distinct texts, swapping
the two candidates changes `ensemble`'s output, so the merge is not
order-insensitive at equal confidence. -/
theorem merge_equal_conf_order_counterexample :
    ensemble "x" 50 "y" 50 ≠ ensemble "y" 50 "x" 50 := by decide

/-- C4 (amended): `ensemble` is a deterministic function of its inputs, and
at equal confidence the *first* candidate's text wins (`t_conf >= e_conf`),
so swapping equal-confidence candidates yields the same output exactly when
the two texts are equal. -/
theorem merge_equal_conf_first_wins (a b : String) (c : ℚ) :
    ensemble a c b c = (a, weighted_confidence c c) ∧
    (ensemble a c b c = ensemble b c a c ↔ a = b) := by
  refine ⟨by simp [ensemble], ⟨fun h => ?_, fun h => by subst h; rfl⟩⟩
  have := congrArg Prod.fst h
  simpa [ensemble] using this

/-! ## C8 -/

theorem round2_zero : round2 0 = 0 := by
  simp [round2, pyRoundHalfEven]

unseal Rat.add Rat.mul Rat.inv Rat.sub in
/-- C8 counterexample: the Mistral engine's document confidence of the
two-page document with page confidences 0.01 and 0.02 is 0.02, not their
arithmetic mean 0.015. -/
theorem mistral_document_confidence_counterexample :
    mistralDocConfidence [1/100, 2/100] ≠ specMean [1/100, 2/100] := by decide

/-- C8 (amended): the DocAI-path document confidence is exactly the
arithmetic mean of the page confidences; the Mistral engine's is that mean
rounded to two decimal places; both are 0 for zero pages. -/
theorem document_confidence_formulas (confs : List ℚ) :
    docMeanConfidence confs = specMean confs ∧
    mistralDocConfidence confs = round2 (specMean confs) ∧
    docMeanConfidence [] = 0 ∧ mistralDocConfidence [] = 0 := by
  have hspec : specMean ([] : List ℚ) = 0 := by simp [specMean]
  have hmempty : mistralDocConfidence [] = 0 := by
    simp [mistralDocConfidence, round2_zero]
  refine ⟨?_, ?_, by simp [docMeanConfidence], hmempty⟩
  · by_cases h : confs = []
    · subst h; simp [docMeanConfidence, hspec]
    · simp [docMeanConfidence, specMean, h]
  · by_cases h : confs = []
    · subst h; rw [hspec, hmempty, round2_zero]
    · simp [mistralDocConfidence, specMean, h]

/-! ## C10 -/

theorem mem_foldr_append {α : Type} (pages : List (List α)) (a : α) :
    a ∈ pages.foldr (· ++ ·) [] ↔ ∃ p ∈ pages, a ∈ p := by
  induction pages with
  | nil => simp
  | cons q qs ih => simp [List.mem_append, ih]

/-- C10: a page whose DocAI response has no token with positive confidence
gets the fixed default confidence 99.0, and appending such a page to any
document whose mean confidence is below 99 raises the document mean. -/
theorem blank_page_default_raises_mean (pages : List (List ℚ))
    (hnone : ∀ p ∈ pages, ∀ c ∈ p, ¬ 0 < c) (others : List ℚ)
    (hlt : specMean others < 99) :
    extract_confidence pages = 99 ∧
    specMean others < specMean (others ++ [extract_confidence pages]) := by
  have hfilter : ((pages.foldr (· ++ ·) []).filter (fun c => decide (0 < c)) :
      List ℚ) = [] := by
    rw [List.filter_eq_nil_iff]
    intro a ha
    obtain ⟨p, hp, hap⟩ := (mem_foldr_append pages a).mp ha
    simpa using hnone p hp a hap
  have h99 : extract_confidence pages = 99 := by
    simp only [extract_confidence, hfilter]
    rfl
  refine ⟨h99, ?_⟩
  rw [h99]
  rcases eq_or_ne others [] with rfl | hne
  · simp [specMean]
  · have hn : 0 < (others.length : ℚ) := by
      exact_mod_cast List.length_pos.mpr hne
    have hformR : specMean (others ++ [99]) =
        (others.sum + 99) / (others.length + 1) := by
      simp [specMean, List.sum_append, List.length_append]
    have hS : others.sum < 99 * others.length := by
      rw [show specMean others = others.sum / others.length from rfl,
        div_lt_iff₀ hn] at hlt
      linarith
    rw [show specMean others = others.sum / others.length from rfl, hformR,
      div_lt_div_iff₀ hn (by positivity)]
    nlinarith [hS]

unseal Rat.add Rat.mul Rat.inv Rat.sub in
/-- Witness for C10: two pages of non-positive token confidences, appended
to a document averaging 50. -/
theorem blank_page_default_raises_mean_witness :
    ((∀ p ∈ ([[0, -1], []] : List (List ℚ)), ∀ c ∈ p, ¬ 0 < c) ∧
      specMean [50] < 99) ∧
    (extract_confidence [[0, -1], []] = 99 ∧
      specMean [50] < specMean ([50] ++ [extract_confidence [[0, -1], []]])) :=
  ⟨⟨by decide, by decide⟩,
    blank_page_default_raises_mean [[0, -1], []] (by decide) [50] (by decide)⟩

/-! ## C9 -/

/-- C9: for a premium-routed request, if the document is still over the
Mistral size limit after compression, or Mistral rejects it with a
payload-too-large error, the request is processed by the DocAI (standard)
family and the caller receives its normal document result (with the final
auto-language override), not an error. -/
theorem oversized_premium_routes_to_standard
    (detectLang : String → List String × String)
    (fileLen compressedLen : ℕ) (mistralOutcome : Except String DocResult)
    (d : DocResult)
    (hbig : MISTRAL_MAX_FILE_BYTES <
        (if COMPRESS_THRESHOLD_BYTES < fileLen then compressedLen else fileLen) ∨
      ∃ e, mistralOutcome = .error e ∧ isPayloadTooLargeError e = true) :
    process_file_auto detectLang fileLen compressedLen mistralOutcome (.ok d) =
      .ok (applyAutoLanguage detectLang d) := by
  unfold process_file_auto
  rcases hbig with h | ⟨e, rfl, hp⟩
  · simp [h, Except.map]
  · by_cases hsz : MISTRAL_MAX_FILE_BYTES <
      (if COMPRESS_THRESHOLD_BYTES < fileLen then compressedLen else fileLen)
    · simp [hsz, Except.map]
    · simp [hsz, hp, Except.map]

/-- Witness for C9: a 60 MB file compressing only to 52 MB routes to DocAI
and yields DocAI's document result. -/
theorem oversized_premium_routes_to_standard_witness :
    (MISTRAL_MAX_FILE_BYTES <
      (if COMPRESS_THRESHOLD_BYTES < 62914560 then 54525952 else 62914560)) ∧
    process_file_auto (fun _ => (["bn"], "bangla")) 62914560 54525952
      (.error "boom") (.ok ⟨"t", 90, 1, ["en"], "mixed"⟩) =
      .ok (applyAutoLanguage (fun _ => (["bn"], "bangla"))
        ⟨"t", 90, 1, ["en"], "mixed"⟩) :=
  ⟨by decide,
    oversized_premium_routes_to_standard (fun _ => (["bn"], "bangla"))
      62914560 54525952 (.error "boom") ⟨"t", 90, 1, ["en"], "mixed"⟩
      (Or.inl (by decide))⟩

/-! ## C5/C6 — supporting lemmas

First, generic facts about the character classes and the split/join/strip
plumbing; then the token-level case analyses of the filter; finally
idempotence and the Bangla-scenario facts. -/

theorem bool_true_of_ne_false {b : Bool} (h : b ≠ false) : b = true := by
  cases b
  · exact absurd rfl h
  · rfl

theorem any_false_of_all {p : Char → Bool} {l : List Char}
    (h : ∀ c ∈ l, p c = false) : l.any p = false := by
  induction l with
  | nil => rfl
  | cons a l ih =>
    have ha := h a (List.mem_cons_self a l)
    have hl := ih fun c hc => h c (List.mem_cons_of_mem a hc)
    simp [List.any_cons, ha, hl]

theorem all_of_any_false {p : Char → Bool} {l : List Char}
    (h : l.any p = false) : ∀ c ∈ l, p c = false := by
  intro c hc
  by_contra hne
  have : l.any p = true := List.any_eq_true.mpr ⟨c, hc, bool_true_of_ne_false hne⟩
  rw [h] at this
  exact Bool.noConfusion this

theorem latin_not_bangla {c : Char} (h : isLatinLetterCh c = true) :
    isBanglaCh c = false := by
  simp only [isLatinLetterCh, Bool.or_eq_true, Bool.and_eq_true,
    decide_eq_true_eq] at h
  by_contra hb
  have hb' := bool_true_of_ne_false (b := isBanglaCh c) fun hx => hb hx
  simp only [isBanglaCh, Bool.and_eq_true, decide_eq_true_eq] at hb'
  omega

theorem digit_not_latin {c : Char} (h : isDigitCh c = true) :
    isLatinLetterCh c = false := by
  simp only [isDigitCh, Bool.and_eq_true, decide_eq_true_eq] at h
  by_contra hb
  have hb' := bool_true_of_ne_false (b := isLatinLetterCh c) fun hx => hb hx
  simp only [isLatinLetterCh, Bool.or_eq_true, Bool.and_eq_true,
    decide_eq_true_eq] at hb'
  omega

theorem allDigits_no_latin {t : Tok} (h : allDigitsTok t = true) :
    hasLatinLetter t = false := by
  simp only [allDigitsTok, Bool.and_eq_true, List.all_eq_true] at h
  exact any_false_of_all fun c hc => digit_not_latin (h.2 c hc)

theorem numericWithPunct_no_latin {t : Tok} (h : numericWithPunct t = true) :
    hasLatinLetter t = false := by
  simp only [numericWithPunct, Bool.or_eq_true] at h
  rcases h with h | h
  · exact allDigits_no_latin h
  · apply any_false_of_all
    intro c hc
    have hc' : c ∈ t.reverse := List.mem_reverse.mpr hc
    cases hr : t.reverse with
    | nil => rw [hr] at hc'; exact absurd hc' (List.not_mem_nil c)
    | cons p rest =>
      rw [hr] at h hc'
      simp only [Bool.and_eq_true, Bool.or_eq_true, beq_iff_eq,
        List.all_eq_true] at h
      obtain ⟨⟨hp, -⟩, hdig⟩ := h
      rcases List.mem_cons.mp hc' with rfl | hcr
      · rcases hp with (rfl | rfl) | rfl <;> decide
      · exact digit_not_latin (hdig c hcr)

theorem pyStrip_mem {c : Char} {l : List Char} (h : c ∈ pyStrip l) : c ∈ l := by
  unfold pyStrip at h
  rw [List.mem_reverse] at h
  have h2 := (List.dropWhile_sublist isSpaceCh).subset h
  rw [List.mem_reverse] at h2
  exact (List.dropWhile_sublist isSpaceCh).subset h2

theorem stripLatin_mem {c : Char} {t : Tok} (h : c ∈ stripLatinLetters t) :
    c ∈ t ∧ isLatinLetterCh c = false := by
  have hm := List.mem_filter.mp h
  refine ⟨hm.1, ?_⟩
  have h2 := hm.2
  cases hc : isLatinLetterCh c
  · rfl
  · rw [hc] at h2; exact Bool.noConfusion h2

theorem pyStrip_stripLatin_no_latin (t : Tok) :
    hasLatinLetter (pyStrip (stripLatinLetters t)) = false :=
  any_false_of_all fun _ hc => (stripLatin_mem (pyStrip_mem hc)).2

theorem arabicBranchToken_subset (t : Tok) (langs : List String) :
    ∀ c ∈ arabicBranchToken t langs, c ∈ t := by
  intro c hc
  unfold arabicBranchToken at hc
  repeat' split at hc
  all_goals first
    | exact hc
    | exact absurd hc (List.not_mem_nil c)
    | exact (stripLatin_mem (pyStrip_mem hc)).1

theorem filterToken_subset (t : Tok) (langs : List String) :
    ∀ c ∈ filterHallucinatedToken t langs, c ∈ t := by
  intro c hc
  unfold filterHallucinatedToken at hc
  repeat' split at hc
  all_goals first
    | exact hc
    | exact absurd hc (List.not_mem_nil c)
    | exact (stripLatin_mem (pyStrip_mem hc)).1
    | exact arabicBranchToken_subset t langs c hc

theorem splitWs_sound (s : List Char) :
    ∀ t ∈ splitWs s, t ≠ [] ∧ ∀ c ∈ t, isSpaceCh c = false := by
  induction s using splitWs.induct with
  | case1 => intro t ht; rw [splitWs] at ht; exact absurd ht (List.not_mem_nil t)
  | case2 c cs hsp ih =>
    intro t ht
    rw [splitWs] at ht
    rw [if_pos hsp] at ht
    exact ih t ht
  | case3 c cs hsp ih =>
    intro t ht
    rw [splitWs] at ht
    rw [if_neg hsp] at ht
    rcases List.mem_cons.mp ht with rfl | hmem
    · refine ⟨List.cons_ne_nil c _, ?_⟩
      intro c' hc'
      rcases List.mem_cons.mp hc' with rfl | htw
      · cases hv : isSpaceCh c'
        · rfl
        · exact absurd hv hsp
      · have := List.mem_takeWhile_imp htw
        simpa using this
    · exact ih t hmem

theorem getLast?_mem_of {l : List Char} {a : Char} (h : l.getLast? = some a) :
    a ∈ l := by
  obtain ⟨hne, rfl⟩ := List.mem_getLast?_eq_getLast (l := l) (by rw [h]; rfl)
  exact List.getLast_mem hne

theorem takeWhile_nonspace_append (t r : List Char)
    (h : ∀ c ∈ t, isSpaceCh c = false) :
    (t ++ ' ' :: r).takeWhile (fun d => !isSpaceCh d) = t := by
  induction t with
  | nil => simp [List.takeWhile, isSpaceCh]
  | cons a t ih =>
    have ha := h a (List.mem_cons_self a t)
    simp only [List.cons_append, List.takeWhile_cons, ha, Bool.not_false, if_pos]
    rw [ih fun c hc => h c (List.mem_cons_of_mem a hc)]

theorem dropWhile_nonspace_append (t r : List Char)
    (h : ∀ c ∈ t, isSpaceCh c = false) :
    (t ++ ' ' :: r).dropWhile (fun d => !isSpaceCh d) = ' ' :: r := by
  induction t with
  | nil => simp [List.dropWhile, isSpaceCh]
  | cons a t ih =>
    have ha := h a (List.mem_cons_self a t)
    simp only [List.cons_append, List.dropWhile_cons, ha, Bool.not_false, if_pos]
    exact ih fun c hc => h c (List.mem_cons_of_mem a hc)

theorem takeWhile_nonspace_self (t : List Char)
    (h : ∀ c ∈ t, isSpaceCh c = false) :
    t.takeWhile (fun d => !isSpaceCh d) = t :=
  List.takeWhile_eq_self_iff.mpr fun c hc => by simp [h c hc]

theorem dropWhile_nonspace_nil (t : List Char)
    (h : ∀ c ∈ t, isSpaceCh c = false) :
    t.dropWhile (fun d => !isSpaceCh d) = [] :=
  List.dropWhile_eq_nil_iff.mpr fun c hc => by simp [h c hc]

theorem joinSp_cons_exists (t : Tok) (ts : List Tok) :
    ∃ l, joinSp (t :: ts) = t ++ l := by
  cases ts with
  | nil => exact ⟨[], by simp [joinSp]⟩
  | cons t2 ts2 => exact ⟨' ' :: joinSp (t2 :: ts2), rfl⟩

theorem joinSp_ne_nil (t : Tok) (ts : List Tok) (h : t ≠ []) :
    joinSp (t :: ts) ≠ [] := by
  obtain ⟨l, hl⟩ := joinSp_cons_exists t ts
  rw [hl]
  intro hx
  exact h (List.append_eq_nil.mp hx).1

theorem splitWs_joinSp (ts : List Tok)
    (h : ∀ t ∈ ts, t ≠ [] ∧ ∀ c ∈ t, isSpaceCh c = false) :
    splitWs (joinSp ts) = ts := by
  induction ts with
  | nil => rw [joinSp, splitWs]
  | cons t ts ih =>
    obtain ⟨hne, hch⟩ := h t (List.mem_cons_self t ts)
    obtain ⟨c, cs, rfl⟩ := List.exists_cons_of_ne_nil hne
    have hc : isSpaceCh c = false := hch c (List.mem_cons_self c cs)
    have hcs : ∀ c' ∈ cs, isSpaceCh c' = false :=
      fun c' hc' => hch c' (List.mem_cons_of_mem c hc')
    cases ts with
    | nil =>
      show splitWs (c :: cs) = [c :: cs]
      rw [splitWs, if_neg (by simp [hc]), takeWhile_nonspace_self cs hcs,
        dropWhile_nonspace_nil cs hcs, splitWs]
    | cons t2 ts2 =>
      show splitWs ((c :: cs) ++ ' ' :: joinSp (t2 :: ts2)) = (c :: cs) :: t2 :: ts2
      rw [List.cons_append, splitWs, if_neg (by simp [hc]),
        takeWhile_nonspace_append cs _ hcs, dropWhile_nonspace_append cs _ hcs,
        splitWs, if_pos (by decide)]
      rw [ih fun u hu => h u (List.mem_cons_of_mem _ hu)]

theorem collapse_nonspace_prefix (t l : List Char)
    (h : ∀ c ∈ t, isSpaceCh c = false) :
    collapseSpaceRuns (t ++ l) = t ++ collapseSpaceRuns l := by
  induction t with
  | nil => rfl
  | cons a t ih =>
    have ha := h a (List.mem_cons_self a t)
    have ha' : (a == ' ') = false := by
      cases hx : a == ' '
      · rfl
      · have : a = ' ' := beq_iff_eq.mp hx
        subst this
        exact absurd ha (by decide)
    rw [List.cons_append, collapseSpaceRuns, if_neg (by simp [ha'])]
    rw [ih fun c hc => h c (List.mem_cons_of_mem a hc)]
    rfl

theorem dropWhile_eq_self_of_head {p : Char → Bool} (l : List Char)
    (h : ∀ c, l.head? = some c → p c = false) : l.dropWhile p = l := by
  cases l with
  | nil => rfl
  | cons a l => rw [List.dropWhile_cons, if_neg (by simp [h a rfl])]

theorem joinSp_head_nonspace (ts : List Tok)
    (h : ∀ t ∈ ts, t ≠ [] ∧ ∀ c ∈ t, isSpaceCh c = false) :
    ∀ c, (joinSp ts).head? = some c → isSpaceCh c = false := by
  intro c hc
  cases ts with
  | nil => rw [joinSp] at hc; exact Option.noConfusion hc
  | cons t ts =>
    obtain ⟨hne, hch⟩ := h t (List.mem_cons_self t ts)
    obtain ⟨c0, cs, rfl⟩ := List.exists_cons_of_ne_nil hne
    obtain ⟨l, hl⟩ := joinSp_cons_exists (c0 :: cs) ts
    rw [hl] at hc
    simp only [List.cons_append, List.head?_cons, Option.some.injEq] at hc
    subst hc
    exact hch _ (List.mem_cons_self _ _)

theorem joinSp_getLast_nonspace (ts : List Tok)
    (h : ∀ t ∈ ts, t ≠ [] ∧ ∀ c ∈ t, isSpaceCh c = false) :
    ∀ c, (joinSp ts).getLast? = some c → isSpaceCh c = false := by
  induction ts with
  | nil => intro c hc; rw [joinSp] at hc; exact Option.noConfusion hc
  | cons t ts ih =>
    intro c hc
    obtain ⟨hne, hch⟩ := h t (List.mem_cons_self t ts)
    cases ts with
    | nil =>
      rw [joinSp] at hc
      exact hch c (getLast?_mem_of hc)
    | cons t2 ts2 =>
      have hj : joinSp (t :: t2 :: ts2) = t ++ ' ' :: joinSp (t2 :: ts2) := rfl
      rw [hj] at hc
      have hne2 : (t2 :: ts2).head? = some t2 := rfl
      have hne2' : joinSp (t2 :: ts2) ≠ [] :=
        joinSp_ne_nil t2 ts2 (h t2 (by simp)).1
      rw [List.getLast?_append_of_ne_nil t (by simp),
        show (' ' :: joinSp (t2 :: ts2)) = [' '] ++ joinSp (t2 :: ts2) from rfl,
        List.getLast?_append_of_ne_nil [' '] hne2'] at hc
      exact ih (fun u hu => h u (List.mem_cons_of_mem t hu)) c hc

theorem pyStrip_eq_self (l : List Char)
    (hhead : ∀ c, l.head? = some c → isSpaceCh c = false)
    (hlast : ∀ c, l.getLast? = some c → isSpaceCh c = false) :
    pyStrip l = l := by
  unfold pyStrip
  rw [dropWhile_eq_self_of_head l hhead,
    dropWhile_eq_self_of_head l.reverse
      (fun c hc => hlast c (by rwa [List.head?_reverse] at hc)),
    List.reverse_reverse]

theorem collapseSpaceRuns_joinSp (ts : List Tok)
    (h : ∀ t ∈ ts, t ≠ [] ∧ ∀ c ∈ t, isSpaceCh c = false) :
    collapseSpaceRuns (joinSp ts) = joinSp ts := by
  induction ts with
  | nil => show collapseSpaceRuns [] = []; rw [collapseSpaceRuns]
  | cons t ts ih =>
    obtain ⟨hne, hch⟩ := h t (List.mem_cons_self t ts)
    cases ts with
    | nil =>
      show collapseSpaceRuns t = t
      have h0 : collapseSpaceRuns ([] : List Char) = [] := by rw [collapseSpaceRuns]
      have := collapse_nonspace_prefix t [] hch
      rw [List.append_nil] at this
      rw [this, h0, List.append_nil]
    | cons t2 ts2 =>
      have hj : joinSp (t :: t2 :: ts2) = t ++ ' ' :: joinSp (t2 :: ts2) := rfl
      rw [hj, collapse_nonspace_prefix t _ hch, collapseSpaceRuns,
        if_pos (by decide)]
      have hrest : ∀ u ∈ t2 :: ts2, u ≠ [] ∧ ∀ c ∈ u, isSpaceCh c = false :=
        fun u hu => h u (List.mem_cons_of_mem t hu)
      have hdrop : (joinSp (t2 :: ts2)).dropWhile (fun d => d == ' ') =
          joinSp (t2 :: ts2) := by
        apply dropWhile_eq_self_of_head
        intro c hc
        have := joinSp_head_nonspace (t2 :: ts2) hrest c hc
        cases hx : c == ' '
        · rfl
        · have hcs : c = ' ' := beq_iff_eq.mp hx
          subst hcs
          exact absurd this (by decide)
      rw [hdrop, ih hrest]

theorem pyStrip_joinSp (ts : List Tok)
    (h : ∀ t ∈ ts, t ≠ [] ∧ ∀ c ∈ t, isSpaceCh c = false) :
    pyStrip (joinSp ts) = joinSp ts :=
  pyStrip_eq_self _ (joinSp_head_nonspace ts h) (joinSp_getLast_nonspace ts h)

theorem arabicBranchToken_of_no_latin (t : Tok) (langs : List String)
    (hL : hasLatinLetter t = false) : arabicBranchToken t langs = t := by
  unfold arabicBranchToken
  split
  · rw [if_neg (by simp [hL]), if_neg (by simp [hL])]
  · rfl

theorem arabicBranchToken_not_armode (t : Tok) (langs : List String)
    (h : ¬("ar" ∈ langs ∧ "en" ∉ langs)) : arabicBranchToken t langs = t := by
  unfold arabicBranchToken
  rw [if_neg h]

theorem arabicBranch_output_no_latin (t : Tok) (langs : List String)
    (har : "ar" ∈ langs) (hen : "en" ∉ langs)
    (hne : arabicBranchToken t langs ≠ []) :
    hasLatinLetter (arabicBranchToken t langs) = false := by
  unfold arabicBranchToken at hne ⊢
  rw [if_pos ⟨har, hen⟩] at hne ⊢
  cases hL : hasLatinLetter t with
  | false =>
    rw [if_neg (by simp [hL]), if_neg (by simp [hL])]
    exact hL
  | true =>
    cases hA : hasArabic t with
    | false =>
      rw [if_pos (by simp [hL, hA])] at hne ⊢
      by_cases hdig : allDigitsTok t = true
      · rw [allDigits_no_latin hdig] at hL
        exact Bool.noConfusion hL
      · rw [if_neg hdig] at hne
        exact absurd rfl hne
    | true =>
      rw [if_neg (by simp [hA]), if_pos (by simp [hL, hA])] at hne ⊢
      by_cases hstr : pyStrip (stripLatinLetters t) = []
      · rw [if_pos hstr] at hne
        exact absurd rfl hne
      · rw [if_neg hstr]
        exact pyStrip_stripLatin_no_latin t

theorem filterToken_not_bnmode (t : Tok) (langs : List String) (ht : t ≠ [])
    (hen : "en" ∉ langs) (hbn : "bn" ∉ langs) :
    filterHallucinatedToken t langs = arabicBranchToken t langs := by
  unfold filterHallucinatedToken
  rw [if_neg ht, if_neg hen, if_neg (fun h => hbn h.1)]

theorem sentenceKeep_of_no_latin {w : Tok} (h : hasLatinLetter w = false) :
    sentenceKeepWord w = true := by
  unfold sentenceKeepWord
  rw [if_neg (by simp [h])]

theorem sentenceKeep_of_bangla {w : Tok} (h : hasBangla w = true) :
    sentenceKeepWord w = true := by
  unfold sentenceKeepWord
  rw [if_neg (by simp [h])]

theorem numeric_of_sentenceKeep {w : Tok} (hkeep : sentenceKeepWord w = true)
    (hL : hasLatinLetter w = true) (hB : hasBangla w = false) :
    numericWithPunct w = true := by
  unfold sentenceKeepWord at hkeep
  rw [if_pos (by simp [hL, hB])] at hkeep
  exact hkeep

theorem allowTokens_not_numeric :
    ∀ t ∈ englishAllowTokens, numericWithPunct t = false := by decide

theorem filterToken_bn_Q (langs : List String) (hbn : "bn" ∈ langs)
    (hen : "en" ∉ langs) (t : Tok)
    (hne : filterHallucinatedToken t langs ≠ [])
    (hkeep : sentenceKeepWord (filterHallucinatedToken t langs) = true) :
    hasLatinLetter (filterHallucinatedToken t langs) = false ∨
      (hasBangla (filterHallucinatedToken t langs) = true ∧
        ¬ latinShareHigh (filterHallucinatedToken t langs)) := by
  by_cases ht : t = []
  · subst ht
    exact absurd rfl hne
  unfold filterHallucinatedToken at hne hkeep ⊢
  rw [if_neg ht, if_neg hen, if_pos ⟨hbn, hen⟩] at hne hkeep ⊢
  cases hL : hasLatinLetter t with
  | false =>
    rw [if_neg (by simp [hL]), if_neg (by simp [hL])] at hne hkeep ⊢
    left
    rw [arabicBranchToken_of_no_latin t langs hL]
    exact hL
  | true =>
    cases hB : hasBangla t with
    | false =>
      rw [if_pos (by simp [hL, hB])] at hne hkeep ⊢
      by_cases hdig : allDigitsTok t = true
      · rw [allDigits_no_latin hdig] at hL
        exact Bool.noConfusion hL
      · rw [if_neg hdig] at hne hkeep ⊢
        by_cases hallow : t ∈ englishAllowTokens
        · rw [if_pos hallow] at hkeep
          have hnum := numeric_of_sentenceKeep hkeep hL hB
          rw [allowTokens_not_numeric t hallow] at hnum
          exact Bool.noConfusion hnum
        · rw [if_neg hallow] at hne
          split at hne
          · exact absurd rfl hne
          · exact absurd rfl hne
    | true =>
      rw [if_neg (by simp [hB]), if_pos (by simp [hL, hB])] at hne hkeep ⊢
      by_cases hsh : latinShareHigh t
      · rw [if_pos hsh] at hne hkeep ⊢
        by_cases hstr : pyStrip (stripLatinLetters t) = []
        · rw [if_pos hstr] at hne
          exact absurd rfl hne
        · rw [if_neg hstr] at hne hkeep ⊢
          left
          exact pyStrip_stripLatin_no_latin t
      · rw [if_neg hsh] at hne hkeep ⊢
        right
        exact ⟨hB, hsh⟩

theorem filterToken_stable_bn (langs : List String) (hbn : "bn" ∈ langs)
    (hen : "en" ∉ langs) (u : Tok) (hne : u ≠ [])
    (hQ : hasLatinLetter u = false ∨
      (hasBangla u = true ∧ ¬ latinShareHigh u)) :
    filterHallucinatedToken u langs = u := by
  unfold filterHallucinatedToken
  rw [if_neg hne, if_neg hen, if_pos ⟨hbn, hen⟩]
  rcases hQ with hL | ⟨hB, hsh⟩
  · rw [if_neg (by simp [hL]), if_neg (by simp [hL])]
    exact arabicBranchToken_of_no_latin u langs hL
  · cases hL : hasLatinLetter u with
    | false =>
      rw [if_neg (by simp [hL]), if_neg (by simp [hL])]
      exact arabicBranchToken_of_no_latin u langs hL
    | true =>
      rw [if_neg (by simp [hB]), if_pos (by simp [hL, hB]), if_neg hsh]

theorem filterToken_keeps_bangla (langs : List String) (hbn : "bn" ∈ langs)
    (hen : "en" ∉ langs) (t : Tok) (htne : t ≠ [])
    (hB : hasBangla t = true) (hsh : ¬ latinShareHigh t) :
    filterHallucinatedToken t langs = t :=
  filterToken_stable_bn langs hbn hen t htne (Or.inr ⟨hB, hsh⟩)

theorem keptTokens_sound (text : List Char) (langs : List String) :
    ∀ u ∈ keptTokens text langs,
      u ≠ [] ∧ (∀ c ∈ u, isSpaceCh c = false) ∧
      (∃ t0 ∈ splitWs text, filterHallucinatedToken t0 langs = u) ∧
      ("bn" ∈ langs ∧ "en" ∉ langs → sentenceKeepWord u = true) := by
  intro u hu
  have hbase : u ∈ ((splitWs text).map
      (fun t => filterHallucinatedToken t langs)).filter (fun t => !t.isEmpty) ∧
      ("bn" ∈ langs ∧ "en" ∉ langs → sentenceKeepWord u = true) := by
    unfold keptTokens at hu
    split at hu
    · have hm := List.mem_filter.mp hu
      exact ⟨hm.1, fun _ => hm.2⟩
    · rename_i hcond
      exact ⟨hu, fun h => absurd h hcond⟩
  obtain ⟨hf, hkeep⟩ := hbase
  have hm := List.mem_filter.mp hf
  obtain ⟨t0, ht0, hu0⟩ := List.mem_map.mp hm.1
  have hne : u ≠ [] := by
    intro h
    rw [h] at hm
    exact Bool.noConfusion hm.2
  refine ⟨hne, ?_, ⟨t0, ht0, hu0⟩, hkeep⟩
  intro c hc
  have hct0 : c ∈ t0 := by
    rw [← hu0] at hc
    exact filterToken_subset t0 langs c hc
  exact (splitWs_sound text t0 ht0).2 c hct0

theorem keptTokens_stable (text : List Char) (langs : List String)
    (hen : "en" ∉ langs) :
    ∀ u ∈ keptTokens text langs, filterHallucinatedToken u langs = u := by
  intro u hu
  obtain ⟨hne, hws, ⟨t0, ht0, hu0⟩, hkeep⟩ := keptTokens_sound text langs u hu
  by_cases hbn : "bn" ∈ langs
  · have hk := hkeep ⟨hbn, hen⟩
    have hQ := filterToken_bn_Q langs hbn hen t0
      (by rw [hu0]; exact hne) (by rw [hu0]; exact hk)
    rw [hu0] at hQ
    exact filterToken_stable_bn langs hbn hen u hne hQ
  · have ht0ne : t0 ≠ [] := (splitWs_sound text t0 ht0).1
    have heq : filterHallucinatedToken t0 langs = arabicBranchToken t0 langs :=
      filterToken_not_bnmode t0 langs ht0ne hen hbn
    by_cases har : "ar" ∈ langs
    · have hLu : hasLatinLetter u = false := by
        rw [← hu0, heq]
        exact arabicBranch_output_no_latin t0 langs har hen
          (by rw [← heq, hu0]; exact hne)
      rw [filterToken_not_bnmode u langs hne hen hbn]
      exact arabicBranchToken_of_no_latin u langs hLu
    · rw [filterToken_not_bnmode u langs hne hen hbn]
      exact arabicBranchToken_not_armode u langs (fun h => har h.1)

theorem filterText_unfold (text : List Char) (langs : List String)
    (htext : text ≠ []) (hen : "en" ∉ langs) :
    filterHallucinatedText text langs =
      pyStrip (collapseSpaceRuns
        (if "bn" ∈ langs ∧ "en" ∉ langs then
          joinSp ((splitWs (joinSp (((splitWs text).map
            (fun t => filterHallucinatedToken t langs)).filter
              (fun t => !t.isEmpty)))).filter sentenceKeepWord)
        else
          joinSp (((splitWs text).map
            (fun t => filterHallucinatedToken t langs)).filter
              (fun t => !t.isEmpty)))) := by
  unfold filterHallucinatedText
  rw [if_neg htext, if_neg hen]

theorem filterText_eq_joinSp (text : List Char) (langs : List String)
    (hen : "en" ∉ langs) :
    filterHallucinatedText text langs = joinSp (keptTokens text langs) := by
  by_cases htext : text = []
  · subst htext
    have hs : splitWs ([] : List Char) = [] := by rw [splitWs]
    have h0 : keptTokens ([] : List Char) langs = [] := by
      unfold keptTokens
      rw [hs]
      simp
    rw [h0]
    rfl
  · rw [filterText_unfold text langs htext hen]
    unfold keptTokens
    have hF : ∀ u ∈ ((splitWs text).map
        (fun t => filterHallucinatedToken t langs)).filter (fun t => !t.isEmpty),
        u ≠ [] ∧ ∀ c ∈ u, isSpaceCh c = false := by
      intro u hu
      have hm := List.mem_filter.mp hu
      obtain ⟨t0, ht0, hu0⟩ := List.mem_map.mp hm.1
      constructor
      · intro h
        rw [h] at hm
        exact Bool.noConfusion hm.2
      · intro c hc
        rw [← hu0] at hc
        exact (splitWs_sound text t0 ht0).2 c (filterToken_subset t0 langs c hc)
    by_cases hbn : "bn" ∈ langs ∧ "en" ∉ langs
    · rw [if_pos hbn, if_pos hbn, splitWs_joinSp _ hF]
      have hG : ∀ u ∈ (((splitWs text).map
          (fun t => filterHallucinatedToken t langs)).filter
            (fun t => !t.isEmpty)).filter sentenceKeepWord,
          u ≠ [] ∧ ∀ c ∈ u, isSpaceCh c = false :=
        fun u hu => hF u (List.mem_of_mem_filter hu)
      rw [collapseSpaceRuns_joinSp _ hG, pyStrip_joinSp _ hG]
    · rw [if_neg hbn, if_neg hbn, collapseSpaceRuns_joinSp _ hF,
        pyStrip_joinSp _ hF]

theorem map_self_of {f : Tok → Tok} {ts : List Tok}
    (h : ∀ u ∈ ts, f u = u) : ts.map f = ts := by
  induction ts with
  | nil => rfl
  | cons t ts ih =>
    rw [List.map_cons, h t (List.mem_cons_self t ts),
      ih fun u hu => h u (List.mem_cons_of_mem t hu)]

theorem keptTokens_fixed (langs : List String) (ts : List Tok)
    (hne : ∀ u ∈ ts, u ≠ [])
    (hws : ∀ u ∈ ts, ∀ c ∈ u, isSpaceCh c = false)
    (hstable : ∀ u ∈ ts, filterHallucinatedToken u langs = u)
    (hkeep : "bn" ∈ langs ∧ "en" ∉ langs → ∀ u ∈ ts, sentenceKeepWord u = true) :
    keptTokens (joinSp ts) langs = ts := by
  unfold keptTokens
  rw [splitWs_joinSp ts (fun u hu => ⟨hne u hu, hws u hu⟩), map_self_of hstable,
    List.filter_eq_self.mpr (fun u hu => ?_)]
  · split
    · rename_i hcond
      exact List.filter_eq_self.mpr (hkeep hcond)
    · rfl
  · cases hvu : u with
    | nil => exact absurd hvu (hne u hu)
    | cons c cs => rfl

/-! ## C5 -/

/-- C5: the hallucination filter is idempotent — for every text and every
requested script set, filtering an already-filtered text changes nothing. -/
theorem filter_idempotent (text : String) (langs : List String) :
    filterText (filterText text langs) langs = filterText text langs := by
  show (⟨filterHallucinatedText (filterHallucinatedText text.data langs) langs⟩ :
    String) = ⟨filterHallucinatedText text.data langs⟩
  congr 1
  by_cases hen : "en" ∈ langs
  · have hid : ∀ s : List Char, filterHallucinatedText s langs = s := by
      intro s
      unfold filterHallucinatedText
      by_cases hs : s = []
      · rw [if_pos hs]
      · rw [if_neg hs, if_pos hen]
    rw [hid, hid]
  · rw [filterText_eq_joinSp text.data langs hen,
      filterText_eq_joinSp _ langs hen,
      keptTokens_fixed langs _
        (fun u hu => (keptTokens_sound text.data langs u hu).1)
        (fun u hu => (keptTokens_sound text.data langs u hu).2.1)
        (keptTokens_stable text.data langs hen)
        (fun hcond u hu => (keptTokens_sound text.data langs u hu).2.2.2 hcond)]

/-! ## C6 -/

unseal splitWs collapseSpaceRuns Rat.add Rat.mul Rat.inv Rat.sub in
/-- C6: under the Bangla-only script set:
(a) every nonempty pure-Latin token that is not numeric-only and not on the
allow-list is absent from the filtered output's whitespace tokens;
(b) every input token containing Bangla whose Latin-character share is not
above 30 % appears in the output;
(c) filtering `"আমার নাম Hello World দেশ"` yields `"আমার নাম দেশ"`. -/
theorem bangla_only_filter_tokens :
    (∀ (text : List Char) (tok : Tok), tok ≠ [] →
      (∀ c ∈ tok, isLatinLetterCh c = true) → allDigitsTok tok = false →
      tok ∉ englishAllowTokens →
      tok ∉ splitWs (filterHallucinatedText text ["bn"])) ∧
    (∀ (text : List Char) (tok : Tok), tok ∈ splitWs text →
      hasBangla tok = true → ¬ latinShareHigh tok →
      tok ∈ splitWs (filterHallucinatedText text ["bn"])) ∧
    filterText "আমার নাম Hello World দেশ" ["bn"] = "আমার নাম দেশ" := by
  have hen : "en" ∉ ["bn"] := by decide
  have hsplit : ∀ text : List Char,
      splitWs (filterHallucinatedText text ["bn"]) = keptTokens text ["bn"] := by
    intro text
    rw [filterText_eq_joinSp text ["bn"] hen]
    exact splitWs_joinSp _ fun u hu =>
      ⟨(keptTokens_sound text ["bn"] u hu).1,
        (keptTokens_sound text ["bn"] u hu).2.1⟩
  refine ⟨?_, ?_, by decide⟩
  · intro text tok hne hlat _ _ hmem
    rw [hsplit] at hmem
    obtain ⟨-, -, -, hkeep⟩ := keptTokens_sound text ["bn"] tok hmem
    have hk := hkeep ⟨by decide, hen⟩
    obtain ⟨c, cs, rfl⟩ := List.exists_cons_of_ne_nil hne
    have hL : hasLatinLetter (c :: cs) = true :=
      List.any_eq_true.mpr ⟨c, List.mem_cons_self c cs, hlat c (List.mem_cons_self c cs)⟩
    have hB : hasBangla (c :: cs) = false :=
      any_false_of_all fun d hd => latin_not_bangla (hlat d hd)
    have hnum := numeric_of_sentenceKeep hk hL hB
    rw [numericWithPunct_no_latin hnum] at hL
    exact Bool.noConfusion hL
  · intro text tok htok hB hsh
    rw [hsplit]
    have htne : tok ≠ [] := (splitWs_sound text tok htok).1
    unfold keptTokens
    rw [if_pos ⟨by decide, hen⟩]
    refine List.mem_filter.mpr ⟨List.mem_filter.mpr ⟨?_, ?_⟩, sentenceKeep_of_bangla hB⟩
    · exact List.mem_map.mpr ⟨tok, htok,
        filterToken_keeps_bangla ["bn"] (by decide) hen tok htne hB hsh⟩
    · cases hvt : tok with
      | nil => exact absurd hvt htne
      | cons c cs => rfl

unseal splitWs collapseSpaceRuns Rat.add Rat.mul Rat.inv Rat.sub in
/-- Witness for C6 at the scenario input: `"Hello"` is dropped and
`"আমার"` is kept. -/
theorem bangla_only_filter_tokens_witness :
    "Hello".data ∉
      splitWs (filterHallucinatedText "আমার নাম Hello World দেশ".data ["bn"]) ∧
    "আমার".data ∈
      splitWs (filterHallucinatedText "আমার নাম Hello World দেশ".data ["bn"]) :=
  ⟨bangla_only_filter_tokens.1 "আমার নাম Hello World দেশ".data "Hello".data
      (by decide) (by decide) (by decide) (by decide),
    bangla_only_filter_tokens.2.1 "আমার নাম Hello World দেশ".data "আমার".data
      (by decide) (by decide) (by decide)⟩

/-! ## C7 -/

theorem round2_clamp_range (x : ℚ) :
    0 ≤ round2 (min (999/10) (max 0 x)) ∧
      round2 (min (999/10) (max 0 x)) ≤ 100 := by
  have h0 : 0 ≤ min (999/10 : ℚ) (max 0 x) := le_min (by norm_num) (le_max_left 0 x)
  have h1 : min (999/10 : ℚ) (max 0 x) ≤ 999/10 := min_le_left _ _
  exact ⟨round2_nonneg h0, le_trans round2_le (by linarith)⟩

theorem compute_conf_eq_blend (text : List Char) :
    computePageConfidence text = confidenceBlendSpec text := by
  simp only [computePageConfidence, confidenceBlendSpec, badScoreOf,
    alnumShareOf, wordScoreOf]
  by_cases htext : text = []
  · rw [if_pos htext, if_pos htext]
  · rw [if_neg htext, if_neg htext]
    by_cases hplain : plainTextOf text = []
    · rw [if_pos hplain, hplain]
      have hs : splitWs ([] : List Char) = [] := by rw [splitWs]
      simp only [List.filter_nil, List.length_nil, Nat.cast_zero, zero_div, hs]
      norm_num
    · rw [if_neg hplain]

theorem compute_conf_range (text : List Char) :
    0 ≤ computePageConfidence text ∧ computePageConfidence text ≤ 100 := by
  simp only [computePageConfidence]
  by_cases htext : text = []
  · rw [if_pos htext]
    norm_num
  · rw [if_neg htext]
    by_cases hplain : plainTextOf text = []
    · rw [if_pos hplain]
      exact round2_clamp_range _
    · rw [if_neg hplain]
      exact round2_clamp_range _

unseal splitWs collapseWsRuns Rat.add Rat.mul Rat.inv Rat.sub in
/-- C7: the premium engine's heuristic page confidence is a pure function
of the page text that returns 0.0 for empty text, otherwise equals the
weighted blend 50 % bad-character score + 30 % alphanumeric density + 20 %
word-likeness share (clamped and rounded exactly as the code does), always
lies in [0, 100], and is not constant: `"ab"` and `"##"` score
differently. -/
theorem mistral_confidence_blend :
    computePageConfidence [] = 0 ∧
    (∀ text, computePageConfidence text = confidenceBlendSpec text) ∧
    (∀ text, 0 ≤ computePageConfidence text ∧ computePageConfidence text ≤ 100) ∧
    computePageConfidence "ab".data ≠ computePageConfidence "##".data :=
  ⟨rfl, compute_conf_eq_blend, compute_conf_range, by decide⟩

end OCRPipeline
